import Mathlib

/-!
Verification of the PageRank estimator (`pagerank.py`) against its
natural-language specification.

The embedding models Python dictionaries as insertion-ordered association
lists with `String` keys, Python floats as exact rationals (`ℚ`), Python's
`round(x, n)` as round-half-to-even on the exact rational value, and
`math.floor` as the rational floor.  Fallible code (KeyError from a missing
dict key, ZeroDivisionError, ValueError from `random.randint` on an empty
range) is modelled with `Except`.  Randomness (`random.randint`,
`random.choices`) is modelled by explicit oracle parameters: a start index
and a `pick` function receiving the population and weight lists that the
source passes to `random.choices`.
-/

set_option maxRecDepth 100000

namespace PageRank

/-- Python exceptions that the source can raise, named after the concrete
exception classes: `KeyError` from `corpus[page]` on a missing key,
`ZeroDivisionError` from division by a zero length, and `ValueError` from
`random.randint(0, -1)` on an empty corpus. -/
inductive Err where
  | keyError
  | zeroDivisionError
  | valueError
  deriving DecidableEq

/-- A corpus: the Python dict mapping each page to the list of pages it
links to (a Python set, held as a deduplicated list). -/
abbrev Corpus := List (String × List String)

/-- A probability distribution / rank dict: page to rational value. -/
abbrev Dist := List (String × ℚ)

/-- Key list of a dict, in insertion order (`dict.keys()`). -/
def keys {α : Type} (l : List (String × α)) : List String :=
  l.map Prod.fst

/-- Membership test for a dict key (`k in d`). -/
def hasKey {α : Type} (l : List (String × α)) (k : String) : Bool :=
  l.any (fun kv => kv.1 = k)

/-- Lookup of a dict key (`d[k]` as an `Option`, `none` meaning KeyError). -/
def dictFind? {α : Type} (l : List (String × α)) (k : String) : Option α :=
  match l with
  | [] => none
  | kv :: rest => if kv.1 = k then some kv.2 else dictFind? rest k

/-- Value of a dict key, defaulting to 0 for an absent key.  The default is
only ever exercised where the source guarantees the key is present. -/
def dictGet (l : Dist) (k : String) : ℚ :=
  (dictFind? l k).getD 0

/-- Python dict assignment `d[k] = v`: overwrite the entry in place when the
key is present, append a new entry otherwise. -/
def dictSet (l : Dist) (k : String) (v : ℚ) : Dist :=
  match l with
  | [] => [(k, v)]
  | kv :: rest => if kv.1 = k then (k, v) :: rest else kv :: dictSet rest k v

/-- Sum of the values of a dict (`sum(d.values())`). -/
def sumVals (l : Dist) : ℚ :=
  (l.map Prod.snd).sum

/-- Round a rational to the nearest integer, ties to even — the rounding
rule of Python's built-in `round`.  `Rat.floor x` is the floor `⌊x⌋`
(`Rat.floor_def`), written in its computable form. -/
def roundHalfEven (x : ℚ) : ℤ :=
  if x - Rat.floor x < 1 / 2 then Rat.floor x
  else if x - Rat.floor x > 1 / 2 then Rat.floor x + 1
  else if Rat.floor x % 2 = 0 then Rat.floor x else Rat.floor x + 1

/-- Python's `round(x, nd)` on the exact rational value. -/
def pyround (x : ℚ) (nd : ℕ) : ℚ :=
  (roundHalfEven (x * 10 ^ nd) : ℚ) / 10 ^ nd

/-- `round(x, 4)` — the rounding applied to every new rank. -/
def round4 (x : ℚ) : ℚ :=
  pyround x 4

/-- `math.floor(x * 10000) / 10000` — the end-of-pass truncation step. -/
def floor4 (x : ℚ) : ℚ :=
  (Rat.floor (x * 10000) : ℚ) / 10000

/-- Shallow embedding of `transition_model(corpus, page, damping_factor)`.
The source first builds `prob_dist = {var: 0 for var in corpus.keys()}`,
then evaluates `damping_factor / len(corpus[page])` (KeyError when `page`
is not a key, ZeroDivisionError when its link set is empty), then assigns
`linked_prob` to each linked page, then adds `(1 - damping_factor) /
len(corpus)` to every corpus key. -/
def transition_model (corpus : Corpus) (page : String) (damping_factor : ℚ) :
    Except Err Dist :=
  match dictFind? corpus page with
  | none => .error .keyError
  | some links =>
      if links.length = 0 then .error .zeroDivisionError
      else
        let prob_dist : Dist := corpus.map (fun kv => (kv.1, (0 : ℚ)))
        let linked_prob := damping_factor / (links.length : ℚ)
        let prob_dist := links.foldl (fun acc p => dictSet acc p linked_prob) prob_dist
        let prob_dist := (keys corpus).foldl
          (fun acc p => dictSet acc p (dictGet acc p + (1 - damping_factor) / (corpus.length : ℚ)))
          prob_dist
        .ok prob_dist

/-- The weight list the source hands to `random.choices`:
`[round(val * 100, 6) for val in prob_dist.values()]`. -/
def choiceWeights (prob_dist : Dist) : List ℚ :=
  prob_dist.map (fun kv => pyround (kv.2 * 100) 6)

/-- The sampling loop of `sample_pagerank` (`for sample in range(n)`): draw
a page from the current distribution via the oracle `pick`, recompute the
transition model (which may raise), and tally a visit to the drawn page. -/
def sampleLoop (corpus : Corpus) (damping_factor : ℚ)
    (pick : List String → List ℚ → String) :
    ℕ → Dist → Dist → Except Err Dist
  | 0, pagerank, _ => .ok pagerank
  | n + 1, pagerank, prob_dist =>
      let page := pick (keys prob_dist) (choiceWeights prob_dist)
      match transition_model corpus page damping_factor with
      | .error e => .error e
      | .ok pd =>
          sampleLoop corpus damping_factor pick n
            (dictSet pagerank page (dictGet pagerank page + 1)) pd

/-- Shallow embedding of `sample_pagerank(corpus, damping_factor, n)`.
`random.randint(0, len(corpus) - 1)` raises ValueError on an empty corpus
and otherwise yields an index in range; the oracle value `startIdx` is
reduced mod the corpus size to model it.  The start page is tallied before
the loop; each iteration draws via `random.choices` (oracle `pick`) and
tallies the drawn page; finally every tally is divided by `n` (Python's
`pagerank[p] /= n` raises ZeroDivisionError for `n = 0`, since at that
point the dict is non-empty). -/
def sample_pagerank (corpus : Corpus) (damping_factor : ℚ) (n : ℕ)
    (startIdx : ℕ) (pick : List String → List ℚ → String) :
    Except Err Dist :=
  let pagerank : Dist := corpus.map (fun kv => (kv.1, (0 : ℚ)))
  if corpus.length = 0 then .error .valueError
  else
    let page := (keys corpus).getD (startIdx % corpus.length) ""
    match transition_model corpus page damping_factor with
    | .error e => .error e
    | .ok prob_dist =>
        match sampleLoop corpus damping_factor pick n
            (dictSet pagerank page (dictGet pagerank page + 1)) prob_dist with
        | .error e => .error e
        | .ok pagerank =>
            if n = 0 then .error .zeroDivisionError
            else .ok (pagerank.map (fun kv => (kv.1, kv.2 / (n : ℚ))))

/-- One page's candidate new rank inside `iterate_pagerank`: the loop over
`corpus.items()` accumulates `pagerank[q] / num_links` for every `q` whose
link set contains `page` (with `num_links` replaced by `N` when the link
set is empty — a reassignment that is unreachable together with the
membership test), then `(1-d)/N + d * total` is rounded to 4 digits. -/
def newRank (corpus : Corpus) (damping_factor : ℚ) (pagerank : Dist)
    (page : String) : ℚ :=
  let N := corpus.length
  let total_contribution := corpus.foldl
    (fun acc kv =>
      let num_links := if kv.2.length = 0 then N else kv.2.length
      if page ∈ kv.2 then acc + dictGet pagerank kv.1 / (num_links : ℚ) else acc)
    0
  round4 ((1 - damping_factor) / (N : ℚ) + damping_factor * total_contribution)

/-- The per-pass loop `for page in pagerank.keys()`, generalized over the
iteration order: write each page's `newRank` into the update buffer and
flag a repeat when `round(abs(new_rank - pagerank[page]), 4) > 0.001`,
comparing against the pre-pass value `pagerank[page]`. -/
def iterPassOn (corpus : Corpus) (damping_factor : ℚ) (pagerank : Dist) :
    List String → Dist → Bool → Dist × Bool
  | [], upd, rep => (upd, rep)
  | page :: rest, upd, rep =>
      let nr := newRank corpus damping_factor pagerank page
      let rep := if round4 |nr - dictGet pagerank page| > 1 / 1000 then true else rep
      iterPassOn corpus damping_factor pagerank rest (dictSet upd page nr) rep

/-- The end-of-pass step `updated_pagerank[page] =
math.floor(updated_pagerank[page] * 10000) / 10000` applied to every entry
(the source comments it as normalization). -/
def normalizePass (upd : Dist) : Dist :=
  upd.map (fun kv => (kv.1, floor4 kv.2))

/-- One full pass of the `while repeat` body: iterate over the corpus keys
(the keys of `pagerank`), then apply the end-of-pass truncation. -/
def iterPass (corpus : Corpus) (damping_factor : ℚ) (pagerank upd : Dist) :
    Dist × Bool :=
  let r := iterPassOn corpus damping_factor pagerank (keys corpus) upd false
  (normalizePass r.1, r.2)

/-- The `while repeat` loop with explicit fuel: `none` means the loop is
still running after `fuel` passes (the source has no iteration budget and
would keep looping).  After each pass, `pagerank = updated_pagerank.copy()`
and the loop exits when no page moved beyond the tolerance. -/
def iterLoop (corpus : Corpus) (damping_factor : ℚ) :
    ℕ → Dist → Dist → Option Dist
  | 0, _, _ => none
  | fuel + 1, pagerank, upd =>
      let r := iterPass corpus damping_factor pagerank upd
      if r.2 then iterLoop corpus damping_factor fuel r.1 r.1 else some r.1

/-- Shallow embedding of `iterate_pagerank(corpus, damping_factor)`.
`initial_rank = 1 / N` raises ZeroDivisionError when the corpus is empty;
otherwise every page starts at `1/N`, the update buffer starts at 0, and
the `while` loop runs (with fuel; `.ok none` means it is still looping). -/
def iterate_pagerank (corpus : Corpus) (damping_factor : ℚ) (fuel : ℕ) :
    Except Err (Option Dist) :=
  if corpus.length = 0 then .error .zeroDivisionError
  else
    let initial_rank : ℚ := 1 / (corpus.length : ℚ)
    let pagerank : Dist := corpus.map (fun kv => (kv.1, initial_rank))
    let updated_pagerank : Dist := corpus.map (fun kv => (kv.1, (0 : ℚ)))
    .ok (iterLoop corpus damping_factor fuel pagerank updated_pagerank)

/-! ### Dictionary lemmas -/

theorem hasKey_iff_mem {α : Type} (l : List (String × α)) (k : String) :
    hasKey l k = true ↔ k ∈ keys l := by
  induction l with
  | nil => simp [hasKey, keys]
  | cons kv rest ih =>
      by_cases hk : kv.1 = k
      · simp [hasKey, keys, hk]
      · simp only [hasKey, List.any_cons, keys, List.map_cons, List.mem_cons] at ih ⊢
        simp [hk, Ne.symm hk, ih]

theorem keys_map_entry {α β : Type} (l : List (String × α)) (f : String × α → β) :
    keys (l.map fun kv => (kv.1, f kv)) = keys l := by
  induction l with
  | nil => rfl
  | cons kv rest ih =>
      simp only [List.map_cons, keys, List.map_cons] at ih ⊢
      rw [ih]

theorem dictFind?_mem {α : Type} (l : List (String × α)) (k : String) (v : α)
    (h : dictFind? l k = some v) : (k, v) ∈ l := by
  induction l with
  | nil => simp [dictFind?] at h
  | cons kv rest ih =>
      by_cases hk : kv.1 = k
      · simp only [dictFind?, if_pos hk, Option.some.injEq] at h
        have : kv = (k, v) := by
          obtain ⟨a, b⟩ := kv
          simp only at hk h
          rw [hk, h]
        rw [this] at *
        exact List.mem_cons_self _ _
      · simp only [dictFind?, if_neg hk] at h
        exact List.mem_cons_of_mem _ (ih h)

theorem hasKey_cons_of_ne {α : Type} (kv : String × α) (rest : List (String × α))
    (k : String) (hk : kv.1 ≠ k) (h : hasKey (kv :: rest) k = true) :
    hasKey rest k = true := by
  simpa [hasKey, List.any_cons, hk] using h

theorem keys_dictSet (l : Dist) (k : String) (v : ℚ) (h : hasKey l k = true) :
    keys (dictSet l k v) = keys l := by
  induction l with
  | nil => simp [hasKey] at h
  | cons kv rest ih =>
      by_cases hk : kv.1 = k
      · simp [dictSet, if_pos hk, keys, hk]
      · have h2 := hasKey_cons_of_ne kv rest k hk h
        simp only [dictSet, if_neg hk, keys, List.map_cons] at ih ⊢
        rw [ih h2]

theorem dictGet_dictSet_self (l : Dist) (k : String) (v : ℚ) :
    dictGet (dictSet l k v) k = v := by
  induction l with
  | nil => simp [dictSet, dictGet, dictFind?]
  | cons kv rest ih =>
      by_cases hk : kv.1 = k
      · simp [dictSet, if_pos hk, dictGet, dictFind?]
      · simp only [dictSet, if_neg hk, dictGet, dictFind?, if_neg hk] at ih ⊢
        exact ih

theorem dictGet_dictSet_ne (l : Dist) (k : String) (v : ℚ) (q : String) (h : q ≠ k) :
    dictGet (dictSet l k v) q = dictGet l q := by
  induction l with
  | nil => simp [dictSet, dictGet, dictFind?, if_neg (Ne.symm h)]
  | cons kv rest ih =>
      by_cases hk : kv.1 = k
      · have hq : ¬ kv.1 = q := by rw [hk]; exact Ne.symm h
        simp only [dictSet, if_pos hk, dictGet, dictFind?, if_neg (Ne.symm h), if_neg hq]
      · by_cases hq : kv.1 = q
        · simp only [dictSet, if_neg hk, dictGet, dictFind?, if_pos hq]
        · simp only [dictSet, if_neg hk, dictGet, dictFind?, if_neg hq] at ih ⊢
          exact ih

theorem hasKey_dictSet_of (l : Dist) (k v : _) (q : String) (hq : hasKey l q = true)
    (hk : hasKey l k = true) : hasKey (dictSet l k v) q = true := by
  rw [hasKey_iff_mem] at hq ⊢
  rwa [keys_dictSet l k v hk]

theorem sumVals_dictSet_incr (l : Dist) (k : String) (v : ℚ) :
    sumVals (dictSet l k (dictGet l k + v)) = sumVals l + v := by
  induction l with
  | nil => simp [dictSet, dictGet, dictFind?, sumVals]
  | cons kv rest ih =>
      by_cases hk : kv.1 = k
      · simp only [dictGet, dictFind?, if_pos hk, Option.getD_some]
        simp only [dictSet, if_pos hk, sumVals, List.map_cons, List.sum_cons]
        ring
      · simp only [dictGet, dictFind?, if_neg hk] at ih ⊢
        simp only [dictSet, if_neg hk, sumVals, List.map_cons, List.sum_cons] at ih ⊢
        rw [ih]
        ring

theorem sumVals_map_div (l : Dist) (c : ℚ) :
    sumVals (l.map fun kv => (kv.1, kv.2 / c)) = sumVals l / c := by
  induction l with
  | nil => simp [sumVals]
  | cons kv rest ih =>
      simp only [sumVals, List.map_cons, List.sum_cons] at ih ⊢
      rw [ih, add_div]

theorem sumVals_map_zero {α : Type} (l : List (String × α)) :
    sumVals (l.map fun kv => (kv.1, (0 : ℚ))) = 0 := by
  induction l with
  | nil => simp [sumVals]
  | cons kv rest ih => simpa [sumVals] using ih

theorem dictGet_map_zero {α : Type} (l : List (String × α)) (q : String) :
    dictGet (l.map fun kv => (kv.1, (0 : ℚ))) q = 0 := by
  induction l with
  | nil => simp [dictGet, dictFind?]
  | cons kv rest ih =>
      by_cases hk : kv.1 = q
      · simp [dictGet, dictFind?, hk]
      · simpa [dictGet, dictFind?, hk] using ih

/-! ### Fold lemmas for the two loops of `transition_model` -/

theorem dictGet_foldl_const (L : List String) (v : ℚ) :
    ∀ (dist : Dist) (q : String),
      dictGet (L.foldl (fun acc p => dictSet acc p v) dist) q
        = if q ∈ L then v else dictGet dist q := by
  induction L with
  | nil => intro dist q; simp
  | cons p rest ih =>
      intro dist q
      rw [List.foldl_cons, ih]
      by_cases hq : q ∈ rest
      · simp [hq, List.mem_cons]
      · by_cases hp : q = p
        · simp [hq, hp, dictGet_dictSet_self]
        · simp [hq, hp, dictGet_dictSet_ne dist p v q hp]

theorem keys_foldl_const (L : List String) (v : ℚ) :
    ∀ (dist : Dist), (∀ p ∈ L, hasKey dist p = true) →
      keys (L.foldl (fun acc p => dictSet acc p v) dist) = keys dist := by
  induction L with
  | nil => intro dist _; rfl
  | cons p rest ih =>
      intro dist h
      have hp := h p (List.mem_cons_self _ _)
      rw [List.foldl_cons, ih, keys_dictSet dist p v hp]
      intro q hq
      exact hasKey_dictSet_of dist p v q (h q (List.mem_cons_of_mem _ hq)) hp

theorem dictGet_foldl_incr (c : ℚ) :
    ∀ (L : List String) (dist : Dist) (q : String), L.Nodup →
      (∀ p ∈ L, hasKey dist p = true) →
      dictGet (L.foldl (fun acc p => dictSet acc p (dictGet acc p + c)) dist) q
        = dictGet dist q + if q ∈ L then c else 0 := by
  intro L
  induction L with
  | nil => intro dist q _ _; simp
  | cons p rest ih =>
      intro dist q hnd h
      have hp := h p (List.mem_cons_self _ _)
      have hrest : ∀ r ∈ rest, hasKey (dictSet dist p (dictGet dist p + c)) r = true :=
        fun r hr => hasKey_dictSet_of dist p _ r (h r (List.mem_cons_of_mem _ hr)) hp
      rw [List.foldl_cons, ih _ q (List.nodup_cons.mp hnd).2 hrest]
      by_cases hqp : q = p
      · subst hqp
        have hq : q ∉ rest := (List.nodup_cons.mp hnd).1
        simp [hq, dictGet_dictSet_self]
      · rw [dictGet_dictSet_ne dist p _ q hqp]
        by_cases hq : q ∈ rest
        · simp [hq, List.mem_cons]
        · simp [hq, hqp, List.mem_cons]

theorem keys_foldl_incr (c : ℚ) :
    ∀ (L : List String) (dist : Dist), (∀ p ∈ L, hasKey dist p = true) →
      keys (L.foldl (fun acc p => dictSet acc p (dictGet acc p + c)) dist) = keys dist := by
  intro L
  induction L with
  | nil => intro dist _; rfl
  | cons p rest ih =>
      intro dist h
      have hp := h p (List.mem_cons_self _ _)
      rw [List.foldl_cons, ih, keys_dictSet dist p _ hp]
      intro q hq
      exact hasKey_dictSet_of dist p _ q (h q (List.mem_cons_of_mem _ hq)) hp

/-! ### Summation lemmas -/

theorem sumVals_eq_keysSum :
    ∀ (l : Dist), (keys l).Nodup →
      sumVals l = ((keys l).map (fun k => dictGet l k)).sum := by
  intro l
  induction l with
  | nil => intro _; rfl
  | cons kv rest ih =>
      intro hnd
      simp only [keys, List.map_cons] at hnd
      have hk : kv.1 ∉ keys rest := (List.nodup_cons.mp hnd).1
      have htail : (keys rest).Nodup := (List.nodup_cons.mp hnd).2
      simp only [sumVals, keys, List.map_cons, List.sum_cons]
      have hhead : dictGet (kv :: rest) kv.1 = kv.2 := by
        simp [dictGet, dictFind?]
      rw [hhead]
      have htail2 : (List.map Prod.fst rest).map (fun k => dictGet (kv :: rest) k)
          = (List.map Prod.fst rest).map (fun k => dictGet rest k) := by
        apply List.map_congr_left
        intro q hq
        have hne : kv.1 ≠ q := fun h => hk (h ▸ (by simpa [keys] using hq))
        simp [dictGet, dictFind?, hne]
      rw [htail2]
      have hih := ih htail
      simp only [sumVals, keys] at hih
      rw [hih]

theorem sum_map_add_split (K : List String) (f g : String → ℚ) :
    (K.map (fun q => f q + g q)).sum = (K.map f).sum + (K.map g).sum := by
  induction K with
  | nil => simp
  | cons k rest ih =>
      simp only [List.map_cons, List.sum_cons, ih]
      ring

theorem sum_map_const_val (K : List String) (c : ℚ) :
    (K.map (fun _ => c)).sum = K.length * c := by
  induction K with
  | nil => simp
  | cons k rest ih =>
      simp only [List.map_cons, List.sum_cons, ih, List.length_cons]
      push_cast
      ring

theorem sum_map_ite_mem :
    ∀ (K links : List String) (x : ℚ), K.Nodup → links.Nodup →
      (∀ q ∈ links, q ∈ K) →
      (K.map (fun q => if q ∈ links then x else 0)).sum = links.length * x := by
  intro K
  induction K with
  | nil =>
      intro links x _ _ hsub
      have : links = [] := List.eq_nil_iff_forall_not_mem.mpr fun a ha =>
        (List.not_mem_nil a) (hsub a ha)
      simp [this]
  | cons k rest ih =>
      intro links x hnd hlnd hsub
      have hkrest : k ∉ rest := (List.nodup_cons.mp hnd).1
      have hrestnd : rest.Nodup := (List.nodup_cons.mp hnd).2
      simp only [List.map_cons, List.sum_cons]
      by_cases hk : k ∈ links
      · have herase_nd : (links.erase k).Nodup := hlnd.erase k
        have hmem_erase : ∀ q, q ∈ links.erase k ↔ q ≠ k ∧ q ∈ links :=
          fun q => hlnd.mem_erase_iff
        have hsub2 : ∀ q ∈ links.erase k, q ∈ rest := by
          intro q hq
          obtain ⟨hqk, hql⟩ := (hmem_erase q).mp hq
          rcases List.mem_cons.mp (hsub q hql) with h | h
          · exact absurd h hqk
          · exact h
        have hcongr : rest.map (fun q => if q ∈ links then x else 0)
            = rest.map (fun q => if q ∈ links.erase k then x else 0) := by
          apply List.map_congr_left
          intro q hq
          have hqk : q ≠ k := fun h => hkrest (h ▸ hq)
          by_cases hql : q ∈ links
          · rw [if_pos hql, if_pos ((hmem_erase q).mpr ⟨hqk, hql⟩)]
          · rw [if_neg hql, if_neg (fun hc => hql ((hmem_erase q).mp hc).2)]
        rw [if_pos hk, hcongr, ih (links.erase k) x hrestnd herase_nd hsub2]
        have hlen : (links.erase k).length = links.length - 1 :=
          List.length_erase_of_mem hk
        have hpos : 1 ≤ links.length := List.length_pos.mpr
          (List.ne_nil_of_mem hk)
        rw [hlen]
        have : ((links.length - 1 : ℕ) : ℚ) = (links.length : ℚ) - 1 := by
          push_cast [Nat.cast_sub hpos]
          ring
        rw [this]
        ring
      · have hsub2 : ∀ q ∈ links, q ∈ rest := by
          intro q hql
          rcases List.mem_cons.mp (hsub q hql) with h | h
          · exact absurd (h ▸ hql) hk
          · exact h
        rw [if_neg hk, ih links x hrestnd hlnd hsub2]
        ring

/-! ### Structure of `transition_model` -/

theorem transition_model_ok_eq (corpus : Corpus) (page : String) (d : ℚ)
    (links : List String) (hfind : dictFind? corpus page = some links)
    (hne : ¬ links.length = 0) :
    transition_model corpus page d = .ok
      ((keys corpus).foldl
        (fun acc p => dictSet acc p (dictGet acc p + (1 - d) / (corpus.length : ℚ)))
        (links.foldl (fun acc p => dictSet acc p (d / (links.length : ℚ)))
          (corpus.map (fun kv => (kv.1, (0 : ℚ)))))) := by
  simp only [transition_model, hfind, if_neg hne]

theorem keys_transition_model (corpus : Corpus) (page : String) (d : ℚ) (dist : Dist)
    (hwf : ∀ kv ∈ corpus, ∀ l ∈ kv.2, l ∈ keys corpus)
    (h : transition_model corpus page d = .ok dist) : keys dist = keys corpus := by
  rcases hfind : dictFind? corpus page with _ | links
  · simp only [transition_model, hfind] at h
    exact absurd h (by simp)
  · by_cases hlen : links.length = 0
    · simp only [transition_model, hfind, if_pos hlen] at h
      exact absurd h (by simp)
    · rw [transition_model_ok_eq corpus page d links hfind hlen] at h
      rw [Except.ok.injEq] at h
      subst h
      have hsub : ∀ l ∈ links, l ∈ keys corpus :=
        hwf (page, links) (dictFind?_mem corpus page links hfind)
      have k0 : keys (corpus.map fun kv => (kv.1, (0 : ℚ))) = keys corpus :=
        keys_map_entry corpus (fun _ => (0 : ℚ))
      have k1 : keys (links.foldl (fun acc p => dictSet acc p (d / (links.length : ℚ)))
          (corpus.map fun kv => (kv.1, (0 : ℚ)))) = keys corpus := by
        rw [keys_foldl_const, k0]
        intro p hp
        rw [hasKey_iff_mem, k0]
        exact hsub p hp
      rw [keys_foldl_incr, k1]
      intro p hp
      rw [hasKey_iff_mem, k1]
      exact hp

/-! ### Structure of the iteration pass -/

theorem dictSet_eq_map (l : Dist) (k : String) (v : ℚ) (hnd : (keys l).Nodup)
    (h : hasKey l k = true) :
    dictSet l k v = l.map (fun kv => if kv.1 = k then (k, v) else kv) := by
  induction l with
  | nil => simp [hasKey] at h
  | cons kv rest ih =>
      have hnd2 : (keys rest).Nodup := by
        simp only [keys, List.map_cons, List.nodup_cons] at hnd
        exact hnd.2
      have hk_tail : kv.1 ∉ keys rest := by
        simp only [keys, List.map_cons, List.nodup_cons] at hnd
        exact hnd.1
      by_cases hk : kv.1 = k
      · have hmap : rest.map (fun kv2 => if kv2.1 = k then (k, v) else kv2) = rest := by
          have := List.map_congr_left (l := rest)
            (f := fun kv2 => if kv2.1 = k then (k, v) else kv2) (g := id) ?_
          · simpa using this
          · intro kv2 hkv2
            have : kv2.1 ≠ k := by
              intro hc
              exact hk_tail (by simpa [keys, hk ▸ hc] using List.mem_map_of_mem Prod.fst hkv2)
            simp [this]
        simp [dictSet, if_pos hk, hk, hmap]
      · have h2 := hasKey_cons_of_ne kv rest k hk h
        simp [dictSet, if_neg hk, hk, ih hnd2 h2]

theorem if_true_else_eq (c : Prop) [Decidable c] (b : Bool) :
    (if c then true else b) = (decide c || b) := by
  by_cases hc : c <;> simp [hc]

theorem iterPassOn_closed (corpus : Corpus) (d : ℚ) (pagerank : Dist) :
    ∀ (order : List String) (upd : Dist) (b : Bool), (keys upd).Nodup →
      (∀ p ∈ order, hasKey upd p = true) →
      iterPassOn corpus d pagerank order upd b =
        (upd.map (fun kv =>
            if kv.1 ∈ order then (kv.1, newRank corpus d pagerank kv.1) else kv),
         b || order.any (fun p =>
            decide (round4 |newRank corpus d pagerank p - dictGet pagerank p| > 1 / 1000))) := by
  intro order
  induction order with
  | nil =>
      intro upd b _ _
      simp [iterPassOn]
  | cons p rest ih =>
      intro upd b hnd h
      have hp : hasKey upd p = true := h p (List.mem_cons_self _ _)
      have hnd2 : (keys (dictSet upd p (newRank corpus d pagerank p))).Nodup := by
        rw [keys_dictSet upd p _ hp]; exact hnd
      have hrest : ∀ q ∈ rest, hasKey (dictSet upd p (newRank corpus d pagerank p)) q = true :=
        fun q hq => hasKey_dictSet_of upd p _ q (h q (List.mem_cons_of_mem _ hq)) hp
      simp only [iterPassOn]
      rw [ih _ _ hnd2 hrest, Prod.mk.injEq]
      refine ⟨?_, ?_⟩
      case _ =>
        rw [dictSet_eq_map upd p _ hnd hp, List.map_map]
        apply List.map_congr_left
        intro kv _
        by_cases hkp : kv.1 = p
        · simp [Function.comp, hkp, List.mem_cons]
        · simp [Function.comp, hkp, List.mem_cons]
      case _ =>
        simp only [List.any_cons, if_true_else_eq]
        cases hx : decide (round4 |newRank corpus d pagerank p - dictGet pagerank p| > 1 / 1000) <;>
          cases b <;> rfl

theorem keys_iterPassOn (corpus : Corpus) (d : ℚ) (pagerank : Dist) :
    ∀ (order : List String) (upd : Dist) (b : Bool),
      (∀ p ∈ order, hasKey upd p = true) →
      keys (iterPassOn corpus d pagerank order upd b).1 = keys upd := by
  intro order
  induction order with
  | nil => intro upd b _; rfl
  | cons p rest ih =>
      intro upd b h
      have hp : hasKey upd p = true := h p (List.mem_cons_self _ _)
      have hrest : ∀ q ∈ rest, hasKey (dictSet upd p (newRank corpus d pagerank p)) q = true :=
        fun q hq => hasKey_dictSet_of upd p _ q (h q (List.mem_cons_of_mem _ hq)) hp
      simp only [iterPassOn]
      rw [ih _ _ hrest, keys_dictSet upd p _ hp]

theorem keys_iterLoop (corpus : Corpus) (d : ℚ) :
    ∀ (fuel : ℕ) (pagerank upd res : Dist), keys upd = keys corpus →
      iterLoop corpus d fuel pagerank upd = some res → keys res = keys corpus := by
  intro fuel
  induction fuel with
  | zero => intro _ _ _ _ h; simp [iterLoop] at h
  | succ m ih =>
      intro pagerank upd res hk h
      have hall : ∀ p ∈ keys corpus, hasKey upd p = true := by
        intro p hp
        rw [hasKey_iff_mem, hk]
        exact hp
      have hpass1 : keys (iterPass corpus d pagerank upd).1 = keys corpus := by
        simp only [iterPass]
        rw [show keys (normalizePass (iterPassOn corpus d pagerank (keys corpus) upd false).1)
              = keys (iterPassOn corpus d pagerank (keys corpus) upd false).1 from
            keys_map_entry _ _]
        rw [keys_iterPassOn corpus d pagerank (keys corpus) upd false hall]
        exact hk
      simp only [iterLoop] at h
      by_cases hrep : (iterPass corpus d pagerank upd).2 = true
      · rw [if_pos hrep] at h
        exact ih _ _ res hpass1 h
      · rw [if_neg hrep] at h
        have : (iterPass corpus d pagerank upd).1 = res := by
          simpa using h
        rw [← this]
        exact hpass1

/-! ### Structure of the sampling loop -/

theorem sumVals_sampleLoop (corpus : Corpus) (d : ℚ)
    (pick : List String → List ℚ → String) :
    ∀ (n : ℕ) (pagerank prob_dist res : Dist),
      sampleLoop corpus d pick n pagerank prob_dist = .ok res →
      sumVals res = sumVals pagerank + n := by
  intro n
  induction n with
  | zero =>
      intro pagerank prob_dist res h
      simp only [sampleLoop, Except.ok.injEq] at h
      subst h
      simp
  | succ m ih =>
      intro pagerank prob_dist res h
      simp only [sampleLoop] at h
      rcases htm : transition_model corpus
          (pick (keys prob_dist) (choiceWeights prob_dist)) d with e | pd
      · rw [htm] at h
        exact absurd h (by simp)
      · rw [htm] at h
        have := ih _ pd res h
        rw [this, sumVals_dictSet_incr]
        push_cast
        ring

theorem keys_sampleLoop (corpus : Corpus) (d : ℚ)
    (pick : List String → List ℚ → String)
    (hwf : ∀ kv ∈ corpus, ∀ l ∈ kv.2, l ∈ keys corpus)
    (hpick : ∀ pop w, pop ≠ [] → pick pop w ∈ pop)
    (hne : keys corpus ≠ []) :
    ∀ (n : ℕ) (pagerank prob_dist res : Dist),
      keys pagerank = keys corpus → keys prob_dist = keys corpus →
      sampleLoop corpus d pick n pagerank prob_dist = .ok res →
      keys res = keys corpus := by
  intro n
  induction n with
  | zero =>
      intro pagerank prob_dist res hpr _ h
      simp only [sampleLoop, Except.ok.injEq] at h
      subst h
      exact hpr
  | succ m ih =>
      intro pagerank prob_dist res hpr hpd h
      simp only [sampleLoop] at h
      have hpage : pick (keys prob_dist) (choiceWeights prob_dist) ∈ keys corpus := by
        rw [← hpd]
        exact hpick _ _ (by rw [hpd]; exact hne)
      rcases htm : transition_model corpus
          (pick (keys prob_dist) (choiceWeights prob_dist)) d with e | pd
      · rw [htm] at h
        exact absurd h (by simp)
      · rw [htm] at h
        have hkeys2 : keys pd = keys corpus := keys_transition_model corpus _ d pd hwf htm
        have htally : keys (dictSet pagerank (pick (keys prob_dist) (choiceWeights prob_dist))
            (dictGet pagerank (pick (keys prob_dist) (choiceWeights prob_dist)) + 1))
            = keys corpus := by
          rw [keys_dictSet, hpr]
          rw [hasKey_iff_mem, hpr]
          exact hpage
        exact ih _ pd res htally hkeys2 h

/-! ### Concrete inputs used by the claims -/

/-- A three-page corpus with one dangling page (page "3" has no outbound
links): pages "1" → "2" → "3", "3" → nothing. -/
def corpus3 : Corpus := [("1", ["2"]), ("2", ["3"]), ("3", [])]

/-- A one-page corpus whose single page is dangling. -/
def corpus1 : Corpus := [("a", ([] : List String))]

/-- A two-page cycle "a" ↔ "b". -/
def corpus2 : Corpus := [("a", ["b"]), ("b", ["a"])]

/-- The corpus "1" ↔ "2" with "3" → "1", on which the solver cycles
forever at damping factor 0.9999. -/
def corpusC5 : Corpus := [("1", ["2"]), ("2", ["1"]), ("3", ["1"])]

/-- First state of the 2-cycle reached by `iterate_pagerank` on
`corpusC5` (after pass 1). -/
def distA : Dist := [("1", 3333/5000), ("2", 3333/10000), ("3", 0)]

/-- Second state of the 2-cycle (after pass 2). -/
def distB : Dist := [("1", 3333/10000), ("2", 3333/5000), ("3", 0)]

/-- A deterministic instantiation of the `random.choices` oracle: always
return the first element of the population (a possible random outcome). -/
def pickFirst : List String → List ℚ → String := fun pop _ => pop.headD ""

theorem iterPass_initC5 :
    iterPass corpusC5 (9999/10000)
      (corpusC5.map (fun kv => (kv.1, 1 / (corpusC5.length : ℚ))))
      (corpusC5.map (fun kv => (kv.1, (0 : ℚ)))) = (distA, true) := by
  with_unfolding_all rfl

theorem iterPass_AB :
    iterPass corpusC5 (9999/10000) distA distA = (distB, true) := by
  with_unfolding_all rfl

theorem iterPass_BA :
    iterPass corpusC5 (9999/10000) distB distB = (distA, true) := by
  with_unfolding_all rfl

theorem iterLoop_cycleC5 (fuel : ℕ) :
    iterLoop corpusC5 (9999/10000) fuel distA distA = none ∧
    iterLoop corpusC5 (9999/10000) fuel distB distB = none := by
  induction fuel with
  | zero => exact ⟨rfl, rfl⟩
  | succ m ih =>
      refine ⟨?_, ?_⟩
      · simp only [iterLoop, iterPass_AB]
        exact ih.2
      · simp only [iterLoop, iterPass_BA]
        exact ih.1

/-! ### Claims -/

/-- C5: the claim says `iterate_pagerank` terminates for every finite
non-empty corpus and every damping factor in (0,1).  It does not: on the
three-page corpus `corpusC5` with damping factor 0.9999 the ranks of pages
"1" and "2" oscillate between 0.3333 and 0.6666 forever (a per-pass change
of 0.3333 > 0.001 keeps the repeat flag set on every pass), so the `while`
loop never exits: for every fuel bound the loop is still running. -/
theorem C5_iterate_nonterminating (fuel : ℕ) :
    iterate_pagerank corpusC5 (9999/10000) fuel = .ok none := by
  have hlen : ¬ (corpusC5.length = 0) := by decide
  simp only [iterate_pagerank, if_neg hlen]
  cases fuel with
  | zero => rfl
  | succ m =>
      simp only [iterLoop, iterPass_initC5]
      exact congrArg Except.ok (iterLoop_cycleC5 m).1

/-- C1: the claim says each pass of `iterate_pagerank` redistributes a
dangling page's rank uniformly (rank(q)/N to every page) and the total
rank is not strictly less than 1.  In the code the contribution is guarded
by `page in linked_pages`, which is never true for an empty link set, so a
dangling page contributes nothing: on `corpus3` (page "3" dangling,
d = 0.85) the first pass gives page "1" rank 0.05 with pass total
0.7166 < 1, and the converged result sums to 0.2711 < 1. -/
theorem C1_dangling_rank_lost :
    iterate_pagerank corpus3 (17/20) 10
        = .ok (some [("1", 1/20), ("2", 37/400), ("3", 643/5000)]) ∧
    sumVals [("1", (1 : ℚ)/20), ("2", 37/400), ("3", 643/5000)] < 1 ∧
    (iterPass corpus3 (17/20) (corpus3.map (fun kv => (kv.1, 1 / (corpus3.length : ℚ))))
        (corpus3.map (fun kv => (kv.1, (0 : ℚ))))).1
        = [("1", 1/20), ("2", 3333/10000), ("3", 3333/10000)] ∧
    sumVals [("1", (1 : ℚ)/20), ("2", 3333/10000), ("3", 3333/10000)] < 1 := by
  refine ⟨?_, ?_, ?_, ?_⟩
  · with_unfolding_all rfl
  · norm_num [sumVals]
  · with_unfolding_all rfl
  · norm_num [sumVals]

/-- C4: the claim says the end of each pass normalizes the distribution to
sum exactly 1.  The code instead truncates each rank to 4 decimal digits
(`math.floor(x*10000)/10000`) and never rescales: on the one-page dangling
corpus `corpus1` the first pass ends with the distribution `{a: 0.15}`,
whose sum is 0.15, not 1, and the final returned distribution is the
same. -/
theorem C4_pass_floor_not_normalized :
    (iterPass corpus1 (17/20) (corpus1.map (fun kv => (kv.1, 1 / (corpus1.length : ℚ))))
        (corpus1.map (fun kv => (kv.1, (0 : ℚ))))).1 = [("a", 3/20)] ∧
    sumVals [("a", (3 : ℚ)/20)] ≠ 1 ∧
    iterate_pagerank corpus1 (17/20) 5 = .ok (some [("a", 3/20)]) := by
  refine ⟨?_, ?_, ?_⟩
  · with_unfolding_all rfl
  · norm_num [sumVals]
  · with_unfolding_all rfl

/-- C2: the claim says `transition_model` succeeds on a document with zero
outbound links and returns the uniform distribution 1/N.  The code
evaluates `damping_factor / len(corpus[page])` with `len = 0` and raises
ZeroDivisionError instead: for every corpus and damping factor, a page
mapped to the empty link set makes `transition_model` fail. -/
theorem C2_transition_dangling_divzero (corpus : Corpus) (page : String) (d : ℚ)
    (h : dictFind? corpus page = some []) :
    transition_model corpus page d = .error .zeroDivisionError := by
  simp [transition_model, h]

/-- Witness for C2 at the concrete one-page dangling corpus. -/
theorem C2_witness :
    dictFind? corpus1 "a" = some [] ∧
    transition_model corpus1 "a" (17/20) = .error .zeroDivisionError :=
  ⟨rfl, C2_transition_dangling_divzero corpus1 "a" (17/20) rfl⟩

/-- C3: the claim says the values returned by `sample_pagerank` sum to 1
within floating tolerance.  The code tallies the start page and then one
page per loop iteration — n+1 increments in total — and divides by n, so
whenever it succeeds the values sum to (n+1)/n, which is systematically
above 1 (2.0 for n = 1, 1.0001 for the default n = 10000). -/
theorem C3_sample_sum_n_plus_one (corpus : Corpus) (d : ℚ) (n startIdx : ℕ)
    (pick : List String → List ℚ → String) (res : Dist)
    (h : sample_pagerank corpus d n startIdx pick = .ok res) :
    sumVals res = ((n : ℚ) + 1) / (n : ℚ) := by
  simp only [sample_pagerank] at h
  split at h
  · exact Except.noConfusion h
  · split at h
    · exact Except.noConfusion h
    · next prob_dist htm =>
        split at h
        · exact Except.noConfusion h
        · next tally hloop =>
            split at h
            · exact Except.noConfusion h
            · next hn =>
                rw [Except.ok.injEq] at h
                subst h
                rw [sumVals_map_div]
                rw [sumVals_sampleLoop corpus d pick n _ prob_dist tally hloop]
                rw [sumVals_dictSet_incr, sumVals_map_zero]
                ring_nf

/-- Witness for C3 at n = 1 on the two-page cycle: the returned values sum
to 2. -/
theorem C3_witness :
    sample_pagerank corpus2 (17/20) 1 0 pickFirst = .ok [("a", 2), ("b", 0)] ∧
    sumVals [("a", (2 : ℚ)), ("b", 0)] = (((1 : ℕ) : ℚ) + 1) / ((1 : ℕ) : ℚ) :=
  ⟨by with_unfolding_all rfl,
   C3_sample_sum_n_plus_one corpus2 (17/20) 1 0 pickFirst [("a", 2), ("b", 0)]
     (by with_unfolding_all rfl)⟩

/-- C6: on a page with at least one outbound link, `transition_model`
gives every linked page mass d/|links| + (1-d)/N, every other corpus page
mass (1-d)/N, and the distribution sums to exactly 1 (the graph invariants
of §3 — deduplicated link sets pointing inside the corpus, no duplicate
keys — are hypotheses). -/
theorem C6_transition_linked_masses (corpus : Corpus) (page : String) (d : ℚ)
    (links : List String) (hfind : dictFind? corpus page = some links)
    (hne : links ≠ []) (hnd : (keys corpus).Nodup) (hlnd : links.Nodup)
    (hsub : ∀ l ∈ links, l ∈ keys corpus) :
    ∃ dist, transition_model corpus page d = .ok dist ∧
      (∀ q ∈ links,
        dictGet dist q = d / (links.length : ℚ) + (1 - d) / (corpus.length : ℚ)) ∧
      (∀ q ∈ keys corpus, q ∉ links →
        dictGet dist q = (1 - d) / (corpus.length : ℚ)) ∧
      sumVals dist = 1 := by
  have hlen : ¬ links.length = 0 := fun hc => hne (List.length_eq_zero.mp hc)
  have hcorpne : corpus ≠ [] := by
    intro hc
    rw [hc] at hfind
    exact Option.noConfusion hfind
  have hN : (corpus.length : ℚ) ≠ 0 := by
    exact_mod_cast fun hc => hcorpne (List.length_eq_zero.mp (by exact_mod_cast hc))
  have hL : (links.length : ℚ) ≠ 0 := by exact_mod_cast hlen
  refine ⟨_, transition_model_ok_eq corpus page d links hfind hlen, ?_, ?_, ?_⟩
  all_goals
    have k0 : keys (corpus.map fun kv => (kv.1, (0 : ℚ))) = keys corpus :=
      keys_map_entry corpus (fun _ => (0 : ℚ))
    have hk1 : ∀ p ∈ links, hasKey (corpus.map fun kv => (kv.1, (0 : ℚ))) p = true := by
      intro p hp
      rw [hasKey_iff_mem, k0]
      exact hsub p hp
    have k1 : keys (links.foldl (fun acc p => dictSet acc p (d / (links.length : ℚ)))
        (corpus.map fun kv => (kv.1, (0 : ℚ)))) = keys corpus := by
      rw [keys_foldl_const _ _ _ hk1, k0]
    have get1 : ∀ q, dictGet (links.foldl (fun acc p => dictSet acc p (d / (links.length : ℚ)))
        (corpus.map fun kv => (kv.1, (0 : ℚ)))) q
        = if q ∈ links then d / (links.length : ℚ) else 0 := by
      intro q
      rw [dictGet_foldl_const, dictGet_map_zero]
    have hk2 : ∀ p ∈ keys corpus,
        hasKey (links.foldl (fun acc p => dictSet acc p (d / (links.length : ℚ)))
          (corpus.map fun kv => (kv.1, (0 : ℚ)))) p = true := by
      intro p hp
      rw [hasKey_iff_mem, k1]
      exact hp
    have get2 : ∀ q, dictGet ((keys corpus).foldl
        (fun acc p => dictSet acc p (dictGet acc p + (1 - d) / (corpus.length : ℚ)))
        (links.foldl (fun acc p => dictSet acc p (d / (links.length : ℚ)))
          (corpus.map fun kv => (kv.1, (0 : ℚ))))) q
        = (if q ∈ links then d / (links.length : ℚ) else 0)
          + if q ∈ keys corpus then (1 - d) / (corpus.length : ℚ) else 0 := by
      intro q
      rw [dictGet_foldl_incr _ _ _ _ hnd hk2, get1]
    have k2 : keys ((keys corpus).foldl
        (fun acc p => dictSet acc p (dictGet acc p + (1 - d) / (corpus.length : ℚ)))
        (links.foldl (fun acc p => dictSet acc p (d / (links.length : ℚ)))
          (corpus.map fun kv => (kv.1, (0 : ℚ))))) = keys corpus := by
      rw [keys_foldl_incr _ _ _ hk2, k1]
  case _ =>
    intro q hq
    rw [get2 q, if_pos hq, if_pos (hsub q hq)]
  case _ =>
    intro q hq hql
    rw [get2 q, if_neg hql, if_pos hq, zero_add]
  case _ =>
    rw [sumVals_eq_keysSum _ (by rw [k2]; exact hnd), k2]
    have hcongr : (keys corpus).map (fun k => dictGet ((keys corpus).foldl
        (fun acc p => dictSet acc p (dictGet acc p + (1 - d) / (corpus.length : ℚ)))
        (links.foldl (fun acc p => dictSet acc p (d / (links.length : ℚ)))
          (corpus.map fun kv => (kv.1, (0 : ℚ))))) k)
        = (keys corpus).map (fun k =>
            (if k ∈ links then d / (links.length : ℚ) else 0)
              + (1 - d) / (corpus.length : ℚ)) := by
      apply List.map_congr_left
      intro q hq
      rw [get2 q, if_pos hq]
    rw [hcongr, sum_map_add_split, sum_map_ite_mem _ _ _ hnd hlnd hsub,
      sum_map_const_val]
    have hkl : ((keys corpus).length : ℚ) = (corpus.length : ℚ) := by
      simp [keys]
    rw [hkl, mul_comm ((links.length : ℚ)) _, div_mul_cancel₀ _ hL,
      mul_div_cancel₀ _ hN]
    ring

/-- Witness for C6 on the two-page cycle at page "a". -/
theorem C6_witness :
    dictFind? corpus2 "a" = some ["b"] ∧ (["b"] : List String) ≠ [] ∧
    (keys corpus2).Nodup ∧ (["b"] : List String).Nodup ∧
    (∀ l ∈ (["b"] : List String), l ∈ keys corpus2) ∧
    (∃ dist, transition_model corpus2 "a" (17/20) = .ok dist ∧
      (∀ q ∈ (["b"] : List String),
        dictGet dist q = (17/20) / ((["b"] : List String).length : ℚ)
          + (1 - 17/20) / (corpus2.length : ℚ)) ∧
      (∀ q ∈ keys corpus2, q ∉ (["b"] : List String) →
        dictGet dist q = (1 - 17/20) / (corpus2.length : ℚ)) ∧
      sumVals dist = 1) :=
  ⟨rfl, by decide, by decide, by decide, by decide,
   C6_transition_linked_masses corpus2 "a" (17/20) ["b"] rfl (by decide)
     (by decide) (by decide) (by decide)⟩

/-- C7: a pass of `iterate_pagerank` reads only the pre-pass distribution:
running the per-page loop in any two orders that visit the same set of
pages (each a key of the update buffer) produces identical results, and the
repeat flag is set exactly when some visited page's new rank differs from
that page's pre-pass value by more than the tolerance. -/
theorem C7_pass_order_independent (corpus : Corpus) (d : ℚ) (pagerank upd : Dist)
    (o1 o2 : List String) (hnd : (keys upd).Nodup)
    (h1 : ∀ p ∈ o1, hasKey upd p = true) (h2 : ∀ p ∈ o2, hasKey upd p = true)
    (h12 : ∀ p ∈ o1, p ∈ o2) (h21 : ∀ p ∈ o2, p ∈ o1) :
    iterPassOn corpus d pagerank o1 upd false = iterPassOn corpus d pagerank o2 upd false ∧
    ((iterPassOn corpus d pagerank o1 upd false).2 = true ↔
      ∃ p ∈ o1, round4 |newRank corpus d pagerank p - dictGet pagerank p| > 1 / 1000) := by
  rw [iterPassOn_closed corpus d pagerank o1 upd false hnd h1,
    iterPassOn_closed corpus d pagerank o2 upd false hnd h2]
  refine ⟨?_, ?_⟩
  · rw [Prod.mk.injEq]
    refine ⟨?_, ?_⟩
    · apply List.map_congr_left
      intro kv _
      by_cases hm : kv.1 ∈ o1
      · rw [if_pos hm, if_pos (h12 _ hm)]
      · rw [if_neg hm, if_neg (fun hc => hm (h21 _ hc))]
    · simp only [Bool.false_or]
      rw [Bool.eq_iff_iff]
      simp only [List.any_eq_true, decide_eq_true_eq]
      constructor
      · rintro ⟨p, hp, hc⟩
        exact ⟨p, h12 p hp, hc⟩
      · rintro ⟨p, hp, hc⟩
        exact ⟨p, h21 p hp, hc⟩
  · simp only [Bool.false_or, List.any_eq_true, decide_eq_true_eq]

/-- Witness for C7 on the two-page cycle with the two possible update
orders. -/
theorem C7_witness :
    (keys [("a", (0 : ℚ)), ("b", 0)]).Nodup ∧
    (∀ p ∈ ["a", "b"], hasKey [("a", (0 : ℚ)), ("b", 0)] p = true) ∧
    (∀ p ∈ ["b", "a"], hasKey [("a", (0 : ℚ)), ("b", 0)] p = true) ∧
    (∀ p ∈ ["a", "b"], p ∈ ["b", "a"]) ∧ (∀ p ∈ ["b", "a"], p ∈ ["a", "b"]) ∧
    (iterPassOn corpus2 (17/20) [("a", (1 : ℚ)/2), ("b", 1/2)] ["a", "b"]
        [("a", (0 : ℚ)), ("b", 0)] false
      = iterPassOn corpus2 (17/20) [("a", (1 : ℚ)/2), ("b", 1/2)] ["b", "a"]
        [("a", (0 : ℚ)), ("b", 0)] false ∧
     ((iterPassOn corpus2 (17/20) [("a", (1 : ℚ)/2), ("b", 1/2)] ["a", "b"]
        [("a", (0 : ℚ)), ("b", 0)] false).2 = true ↔
      ∃ p ∈ ["a", "b"], round4 |newRank corpus2 (17/20) [("a", (1 : ℚ)/2), ("b", 1/2)] p
          - dictGet [("a", (1 : ℚ)/2), ("b", 1/2)] p| > 1 / 1000)) :=
  ⟨by decide, by decide, by decide, by decide, by decide,
   C7_pass_order_independent corpus2 (17/20) [("a", (1 : ℚ)/2), ("b", 1/2)]
     [("a", (0 : ℚ)), ("b", 0)] ["a", "b"] ["b", "a"]
     (by decide) (by decide) (by decide) (by decide) (by decide)⟩

/-- C8: on the empty corpus both estimators fail: `sample_pagerank` at
`random.randint(0, -1)` (ValueError) and `iterate_pagerank` at
`initial_rank = 1/0` (ZeroDivisionError) — the failures the spec's
taxonomy calls `EmptyCorpusError`. -/
theorem C8_empty_corpus_fails (d : ℚ) (n startIdx fuel : ℕ)
    (pick : List String → List ℚ → String) :
    sample_pagerank [] d n startIdx pick = .error .valueError ∧
    iterate_pagerank [] d fuel = .error .zeroDivisionError :=
  ⟨rfl, rfl⟩

/-- C9: calling `transition_model` on a document that is not a key of the
corpus fails — `corpus[page]` raises KeyError, the failure the spec's
taxonomy calls `InvalidDocumentError`. -/
theorem C9_transition_missing_page (corpus : Corpus) (page : String) (d : ℚ)
    (h : dictFind? corpus page = none) :
    transition_model corpus page d = .error .keyError := by
  simp [transition_model, h]

/-- Witness for C9: page "c" is not a key of the two-page cycle. -/
theorem C9_witness :
    dictFind? corpus2 "c" = none ∧
    transition_model corpus2 "c" (17/20) = .error .keyError :=
  ⟨rfl, C9_transition_missing_page corpus2 "c" (17/20) rfl⟩

/-- C10: on every corpus whose link targets stay inside the corpus and with
an oracle that (like `random.choices`) picks from the given population,
each of the three functions returns a dict over exactly the corpus's keys
whenever it succeeds. -/
theorem C10_keys_preserved (corpus : Corpus) (d : ℚ) (n startIdx fuel : ℕ)
    (pick : List String → List ℚ → String)
    (hwf : ∀ kv ∈ corpus, ∀ l ∈ kv.2, l ∈ keys corpus)
    (hpick : ∀ pop w, pop ≠ [] → pick pop w ∈ pop) :
    (∀ page dist, transition_model corpus page d = .ok dist → keys dist = keys corpus) ∧
    (∀ res, sample_pagerank corpus d n startIdx pick = .ok res → keys res = keys corpus) ∧
    (∀ res, iterate_pagerank corpus d fuel = .ok (some res) → keys res = keys corpus) := by
  refine ⟨fun page dist h => keys_transition_model corpus page d dist hwf h, ?_, ?_⟩
  · intro res h
    simp only [sample_pagerank] at h
    split at h
    · exact Except.noConfusion h
    · next h0 =>
        have hne : keys corpus ≠ [] := by
          intro hc
          exact h0 (by simpa [keys] using congrArg List.length hc)
        split at h
        · exact Except.noConfusion h
        · next prob_dist htm =>
            split at h
            · exact Except.noConfusion h
            · next tally hloop =>
                split at h
                · exact Except.noConfusion h
                · next hn =>
                    rw [Except.ok.injEq] at h
                    subst h
                    rw [show keys (tally.map fun kv => (kv.1, kv.2 / (n : ℚ)))
                        = keys tally from keys_map_entry tally _]
                    have hstart : (keys corpus).getD (startIdx % corpus.length) "" ∈ keys corpus := by
                      have hlt : startIdx % corpus.length < (keys corpus).length := by
                        rw [show (keys corpus).length = corpus.length by simp [keys]]
                        exact Nat.mod_lt _ (Nat.pos_of_ne_zero h0)
                      rw [List.getD_eq_getElem _ _ hlt]
                      exact List.getElem_mem _
                    have hbase : keys ((corpus.map fun kv => (kv.1, (0 : ℚ)))) = keys corpus :=
                      keys_map_entry corpus _
                    have htallybase : keys (dictSet (corpus.map fun kv => (kv.1, (0 : ℚ)))
                        ((keys corpus).getD (startIdx % corpus.length) "")
                        (dictGet (corpus.map fun kv => (kv.1, (0 : ℚ)))
                          ((keys corpus).getD (startIdx % corpus.length) "") + 1))
                        = keys corpus := by
                      rw [keys_dictSet, hbase]
                      rw [hasKey_iff_mem, hbase]
                      exact hstart
                    exact keys_sampleLoop corpus d pick hwf hpick hne n _ prob_dist tally
                      htallybase (keys_transition_model corpus _ d prob_dist hwf htm) hloop
  · intro res h
    simp only [iterate_pagerank] at h
    split at h
    · exact Except.noConfusion h
    · rw [Except.ok.injEq] at h
      exact keys_iterLoop corpus d fuel _ _ res (keys_map_entry corpus _) h

/-- Witness for C10 on the two-page cycle with the first-element oracle. -/
theorem C10_witness :
    (∀ kv ∈ corpus2, ∀ l ∈ kv.2, l ∈ keys corpus2) ∧
    (∀ pop w, pop ≠ [] → pickFirst pop w ∈ pop) ∧
    ((∀ page dist, transition_model corpus2 page (17/20) = .ok dist →
        keys dist = keys corpus2) ∧
     (∀ res, sample_pagerank corpus2 (17/20) 2 0 pickFirst = .ok res →
        keys res = keys corpus2) ∧
     (∀ res, iterate_pagerank corpus2 (17/20) 50 = .ok (some res) →
        keys res = keys corpus2)) :=
  ⟨by decide,
   fun pop w hne => by
     cases pop with
     | nil => exact absurd rfl hne
     | cons a rest => exact List.mem_cons_self a rest,
   C10_keys_preserved corpus2 (17/20) 2 0 50 pickFirst (by decide)
     (fun pop w hne => by
       cases pop with
       | nil => exact absurd rfl hne
       | cons a rest => exact List.mem_cons_self a rest)⟩

end PageRank
